import Mathlib

/-!
Verification of the posting-list store (`src/data/doc_indexes.rs`) and the
index-controller metadata types (`src/index_controller/mod.rs`).

Machine integers are modelled as `Nat` with explicit `% 2 ^ 64` where the
source performs `u64` arithmetic; byte buffers are `List Nat` whose elements
are below 256 whenever produced by the encoders.  Rust panics (unchecked
`usize` subtraction, out-of-bounds slicing, `todo!`) are modelled as explicit
outcome constructors, never as Lean partiality.
-/

namespace Meili

/-- One posting entry.  Modelled from the spec: the `DocIndex` record itself is
defined outside the provided sources (`crate::DocIndex`); §3 specifies a
fixed-size, padding-free record of three unsigned integer fields
(`document_id`, `attribute`, `attribute_index`) in fixed order, little-endian.
Each field is instantiated at 64 bits. -/
structure DocIndex where
  document_id : Nat
  «attribute» : Nat
  attribute_index : Nat
deriving DecidableEq, Repr

/-- Models `struct Range { start: u64, end: u64 }` (`#[repr(C)]`, 16 bytes). -/
structure Range where
  start : Nat
  «end» : Nat
deriving DecidableEq, Repr

/-- Little-endian byte image of a 64-bit value, as written by
`write_u64::<LittleEndian>` and as laid out in memory for each `u64` field
reinterpreted by `into_u8_slice`. -/
def u64Bytes (n : Nat) : List Nat :=
  [n % 256, n / 256 % 256, n / 256 ^ 2 % 256, n / 256 ^ 3 % 256,
   n / 256 ^ 4 % 256, n / 256 ^ 5 % 256, n / 256 ^ 6 % 256, n / 256 ^ 7 % 256]

/-- Models `read_u64::<LittleEndian>`: assemble a 64-bit value from the first 8 bytes
of a byte slice.  Every call site in scope passes a slice of at least 8 bytes
(`read_u64` would return an `Err` on a shorter one); the default 0 of the
catch-all branch is never observed by the theorems below. -/
def readU64LE : List Nat → Nat
  | b0 :: b1 :: b2 :: b3 :: b4 :: b5 :: b6 :: b7 :: _ =>
    b0 + 256 * (b1 + 256 * (b2 + 256 * (b3 + 256 * (b4 + 256 * (b5 + 256 * (b6 +
      256 * b7))))))
  | _ => 0

/-- Byte image of one `Range` record (two consecutive `u64` fields). -/
def rangeBytes (r : Range) : List Nat :=
  u64Bytes r.start ++ u64Bytes r.«end»

/-- Models `into_u8_slice` applied to a `&[Range]`. -/
def rangesBytes (rs : List Range) : List Nat :=
  (rs.map rangeBytes).flatten

/-- Byte image of one `DocIndex` record (three consecutive `u64` fields). -/
def docIndexBytes (e : DocIndex) : List Nat :=
  u64Bytes e.document_id ++ u64Bytes e.«attribute» ++ u64Bytes e.attribute_index

/-- Models `into_u8_slice` applied to a `&[DocIndex]`. -/
def sliceBytes (l : List DocIndex) : List Nat :=
  (l.map docIndexBytes).flatten

/-- Models `DocIndexesBuilder<W>` with `W = Vec<u8>` (`DocIndexesBuilder::memory`):
`ranges` is the accumulated `Vec<Range>`, `wtr` the bytes written so far. -/
structure DocIndexesBuilder where
  ranges : List Range
  wtr : List Nat
deriving DecidableEq, Repr

/-- Models `DocIndexesBuilder::memory()` / `new(Vec::new())`. -/
def DocIndexesBuilder.memory : DocIndexesBuilder :=
  ⟨[], []⟩

/-- Models `self.ranges.last().map(|r| r.end).unwrap_or(0)`: the `end` of the last
recorded range, 0 when none has been recorded yet. -/
def lastEnd (rs : List Range) : Nat :=
  ((rs.getLast?).map Range.«end»).getD 0

/-- Models `DocIndexesBuilder::insert`: push `Range { start, end: start + len }`
where `start` is the previous range's `end` (0 for the first call) and `len`
is the slice length, then append the raw bytes of the entries.  The `u64`
addition wraps modulo `2 ^ 64`. -/
def DocIndexesBuilder.insert (b : DocIndexesBuilder) (indexes : List DocIndex) :
    DocIndexesBuilder :=
  { ranges := b.ranges ++ [⟨lastEnd b.ranges, (lastEnd b.ranges + indexes.length) % 2 ^ 64⟩],
    wtr := b.wtr ++ sliceBytes indexes }

/-- Models `DocIndexesBuilder::into_inner`: after the entry bytes already in `wtr`,
write the raw bytes of the ranges, then the byte length of that ranges segment
as a little-endian `u64`. -/
def DocIndexesBuilder.into_inner (b : DocIndexesBuilder) : List Nat :=
  b.wtr ++ rangesBytes b.ranges ++ u64Bytes (rangesBytes b.ranges).length

/-- Build a store buffer from a sequence of posting-entry slices inserted in
order, starting from the fresh in-memory builder. -/
def buildBuffer (ls : List (List DocIndex)) : List Nat :=
  (ls.foldl DocIndexesBuilder.insert DocIndexesBuilder.memory).into_inner

/-- The loaded `DocIndexes` store: two byte windows of the backing buffer.
The `Data` backing-buffer type is modelled as a plain byte list. -/
structure DocIndexes where
  ranges : List Nat
  indexes : List Nat
deriving DecidableEq, Repr

/-- Outcome of a load.  `panicked` models a Rust panic (the unchecked `usize`
subtractions in `from_data` abort the program when they underflow — debug
builds raise an overflow panic, release builds wrap and then the slice
expression `&data[ranges_len_offset..]` panics out of bounds); `ioError`
models an `Err` return of the `io::Result`. -/
inductive LoadResult where
  | ok (d : DocIndexes)
  | panicked
  | ioError
deriving DecidableEq, Repr

/-- Modelled from the spec: `Data::range` (the `Data` type lives outside the
provided sources).  §3 describes the backing buffers as constant-time
`(offset, len)` sub-range windows of the underlying bytes. -/
def dataRange (data : List Nat) (offset len : Nat) : List Nat :=
  (data.drop offset).take len

/-- Models `DocIndexes::from_data`.  Writing `ranges_len_offset` for
`data.len() - 8` and `ranges_len` for the `u64` read at that offset:
`ranges_len_offset` underflows — the program panics — when the buffer is
shorter than 8 bytes, and `ranges_offset = ranges_len_offset - ranges_len`
underflows when the ranges length read from the trailer exceeds the remaining
buffer.  When `data.len() ≥ 8`, the trailer slice holds exactly 8 bytes, so
`read_u64` never fails and no `ioError` is produced. -/
def DocIndexes.from_data (data : List Nat) : LoadResult :=
  if data.length < 8 then .panicked
  else if data.length - 8 < readU64LE (data.drop (data.length - 8)) then .panicked
  else
    .ok ⟨dataRange data (data.length - 8 - readU64LE (data.drop (data.length - 8)))
           (readU64LE (data.drop (data.length - 8))),
         dataRange data 0 (data.length - 8 - readU64LE (data.drop (data.length - 8)))⟩

/-- Models `DocIndexes::from_shared_bytes`: wrap an `(offset, len)` window of a
shared buffer and load it. -/
def DocIndexes.from_shared_bytes (bytes : List Nat) (offset len : Nat) : LoadResult :=
  DocIndexes.from_data (dataRange bytes offset len)

/-- Models `DocIndexes::from_bytes`: load an owned buffer (the full window). -/
def DocIndexes.from_bytes (vec : List Nat) : LoadResult :=
  DocIndexes.from_shared_bytes vec 0 vec.length

/-- Models `DocIndexes::ranges()`: reinterpret the ranges byte window as
`len / size_of::<Range>()` records, record `i` occupying bytes
`[16 * i, 16 * i + 16)` (peel 16 bytes per record; a trailing partial chunk
is dropped by the flooring division). -/
def decodeRanges (bs : List Nat) : List Range :=
  if _h : bs.length < 16 then []
  else ⟨readU64LE bs, readU64LE (bs.drop 8)⟩ :: decodeRanges (bs.drop 16)
termination_by bs.length
decreasing_by simp [List.length_drop]; omega

/-- Models `DocIndexes::indexes()`: reinterpret the entries byte window as
`len / size_of::<DocIndex>()` records, record `i` occupying bytes
`[24 * i, 24 * i + 24)`. -/
def decodeIndexes (bs : List Nat) : List DocIndex :=
  if _h : bs.length < 24 then []
  else ⟨readU64LE bs, readU64LE (bs.drop 8), readU64LE (bs.drop 16)⟩ ::
    decodeIndexes (bs.drop 24)
termination_by bs.length
decreasing_by simp [List.length_drop]; omega

/-- Outcome of `get`: `found`/`notFound` model `Some`/`None`; `panicked`
models the panic of the slice expression `&self.indexes()[start..end]` when
`start > end` or `end > indexes().len()`. -/
inductive GetResult where
  | found (entries : List DocIndex)
  | notFound
  | panicked
deriving DecidableEq, Repr

/-- Models `DocIndexes::get`: index into the decoded ranges (`None` out of bounds),
then slice the decoded entries by the resolved `[start, end)` window. -/
def DocIndexes.get (d : DocIndexes) (index : Nat) : GetResult :=
  match (decodeRanges d.ranges)[index]? with
  | none => .notFound
  | some r =>
    if r.start ≤ r.«end» ∧ r.«end» ≤ (decodeIndexes d.indexes).length then
      .found (((decodeIndexes d.indexes).drop r.start).take (r.«end» - r.start))
    else .panicked

/-- Total entry count of a sequence of inserted slices. -/
def totalLen (ls : List (List DocIndex)) : Nat :=
  (ls.map List.length).sum

/-- Models `Settings`: the four tri-state fields (`HashMap<String, String>` modelled
as an association list). -/
structure Settings where
  displayed_attributes : Option (Option (List String))
  searchable_attributes : Option (Option (List String))
  faceted_attributes : Option (Option (List (String × String)))
  criteria : Option (Option (List String))
deriving DecidableEq, Repr

/-- Models `Settings::cleared()`. -/
def Settings.cleared : Settings :=
  { displayed_attributes := some none,
    searchable_attributes := some none,
    faceted_attributes := some none,
    criteria := some none }

/-- Wire form of one settings field in the field-named external
representation: `none` = key absent from the input document, `some none` =
key present with JSON `null`, `some (some v)` = key present with a value. -/
abbrev Wire (α : Type) := Option (Option α)

/-- Models `deserialize_some`: run the inner deserializer and wrap its output in
`Some`.  For a field of inner type `Option<T>`, JSON `null` parses to `none`
and a value to `some v`, so the wrapper yields `some none` / `some (some v)`. -/
def deserialize_some (v : Option α) : Option (Option α) :=
  some v

/-- serde's stock deserializer for a value of type `Option<Option<T>>` (used
when no `deserialize_with` is given): JSON `null` is consumed by the outer
`Option` via `visit_none`, producing `none`; the inner option never sees it. -/
def nestedOptionDeserialize (v : Option α) : Option (Option α) :=
  v.map some

/-- Wire form of a `Settings` input document (well-typed fields). -/
structure SettingsWire where
  displayed_attributes : Wire (List String)
  searchable_attributes : Wire (List String)
  faceted_attributes : Wire (List (String × String))
  criteria : Wire (List String)
deriving DecidableEq, Repr

/-- The serde-derived deserializer for `Settings`, following its field
attributes: `displayed_attributes`, `searchable_attributes` and `criteria`
carry `#[serde(default, deserialize_with = "deserialize_some")]`, while
`faceted_attributes` carries only `#[serde(default)]`.  An absent field takes
the `default` (`none`); a present field runs the field's deserializer. -/
def Settings.deserialize (w : SettingsWire) : Settings where
  displayed_attributes :=
    match w.displayed_attributes with
    | none => none
    | some v => deserialize_some v
  searchable_attributes :=
    match w.searchable_attributes with
    | none => none
    | some v => deserialize_some v
  faceted_attributes :=
    match w.faceted_attributes with
    | none => none
    | some v => nestedOptionDeserialize v
  criteria :=
    match w.criteria with
    | none => none
    | some v => deserialize_some v

/-- Models `Facets` (`NonZeroUsize` modelled as `Nat`). -/
structure Facets where
  level_group_size : Option Nat
  min_level_size : Option Nat
deriving DecidableEq, Repr

/-- Models `IndexMetadata` (`Uuid` modelled as an opaque string, `DateTime<Utc>` as
an integer timestamp). -/
structure IndexMetadata where
  name : String
  uuid : String
  created_at : Int
  updated_at : Int
  primary_key : Option String
deriving DecidableEq, Repr

/-- camelCase keys of `IndexMetadata` (`#[serde(rename_all = "camelCase")]`). -/
def IndexMetadata.fieldNames : List String :=
  ["name", "uuid", "createdAt", "updatedAt", "primaryKey"]

/-- The `IndexMetadata` struct carries no `#[serde(deny_unknown_fields)]` attribute. -/
def IndexMetadata.denyUnknownFields : Bool := false

/-- camelCase keys of `Settings`. -/
def Settings.fieldNames : List String :=
  ["displayedAttributes", "searchableAttributes", "facetedAttributes", "criteria"]

/-- The attribute `#[serde(deny_unknown_fields)]` is present on `Settings`. -/
def Settings.denyUnknownFields : Bool := true

/-- camelCase keys of `Facets`. -/
def Facets.fieldNames : List String :=
  ["levelGroupSize", "minLevelSize"]

/-- The attribute `#[serde(deny_unknown_fields)]` is present on `Facets`. -/
def Facets.denyUnknownFields : Bool := true

/-- Models `milli::update::IndexDocumentsMethod`, an external type the claims use
only as opaque variant payload. -/
inductive IndexDocumentsMethod where
  | replaceDocuments
  | updateDocuments
deriving DecidableEq, Repr

/-- Models `milli::update::UpdateFormat`, an external type used as opaque payload. -/
inductive UpdateFormat where
  | json
  | csv
  | jsonStream
deriving DecidableEq, Repr

/-- Models `UpdateMeta` (`#[serde(tag = "type")]`). -/
inductive UpdateMeta where
  | documentsAddition (method : IndexDocumentsMethod) (format : UpdateFormat)
  | clearDocuments
  | deleteDocuments
  | settings (s : Settings)
  | facets (f : Facets)
deriving DecidableEq, Repr

/-- The discriminant string written under the `"type"` key by
`#[serde(tag = "type")]` (the variant's name). -/
def UpdateMeta.tag : UpdateMeta → String
  | .documentsAddition _ _ => "DocumentsAddition"
  | .clearDocuments => "ClearDocuments"
  | .deleteDocuments => "DeleteDocuments"
  | .settings _ => "Settings"
  | .facets _ => "Facets"

/-- Keys of the serialized map of an `UpdateMeta` value: the `"type"` tag
entry followed by the variant-specific payload keys (for the newtype variants
the inner struct's present keys are inlined at the same level; the claims only
observe that the tag entry leads). -/
def UpdateMeta.serializedKeys : UpdateMeta → List String
  | .documentsAddition _ _ => ["type", "method", "format"]
  | .clearDocuments => ["type"]
  | .deleteDocuments => ["type"]
  | .settings _ => ["type"]
  | .facets _ => ["type", "levelGroupSize", "minLevelSize"]

/-- The `UpdateMeta` enum carries no `#[serde(deny_unknown_fields)]`. -/
def UpdateMeta.denyUnknownFields : Bool := false

/-- Whether two `UpdateMeta` values are built from the same variant. -/
def UpdateMeta.sameVariant : UpdateMeta → UpdateMeta → Bool
  | .documentsAddition _ _, .documentsAddition _ _ => true
  | .clearDocuments, .clearDocuments => true
  | .deleteDocuments, .deleteDocuments => true
  | .settings _, .settings _ => true
  | .facets _, .facets _ => true
  | _, _ => false

/-- serde's struct-deserialization field loop, restricted to what the claims
observe: with `deny_unknown_fields`, an input key outside the struct's field
list is a hard error; without the attribute, unknown keys are skipped
(deserialized into `IgnoredAny`) and deserialization proceeds. -/
def deserializeFieldKeys (fields : List String) (deny : Bool)
    (input : List String) : Except String Unit :=
  match input.find? (fun k => deny && !fields.contains k) with
  | some k => .error ("unknown field " ++ k)
  | none => .ok ()

/-- Modelled from the spec: the `updates` module is outside the provided
sources.  §3: `Processing` carries the update's meta (and identity). -/
structure Processing (M : Type) where
  update_id : Nat
  meta : M
deriving DecidableEq, Repr

/-- Modelled from the spec: `Processed` additionally carries an
`UpdateResult`-typed success value. -/
structure Processed (M R : Type) where
  update_id : Nat
  meta : M
  result : R
deriving DecidableEq, Repr

/-- Modelled from the spec: `Failed` carries an error description. -/
structure Failed (M E : Type) where
  update_id : Nat
  meta : M
  error : E
deriving DecidableEq, Repr

/-- Models `UpdateResult` (`DocumentAdditionResult` is an external milli type,
modelled as the number of documents). -/
inductive UpdateResult where
  | documentsAddition (nb_documents : Nat)
  | documentDeletion (deleted : Nat)
  | other
deriving DecidableEq, Repr

/-- Possible outcomes of a call to the trait's `handle_update` default body:
an `Ok(Processed)` return, an `Err(Failed)` return, or a panic. -/
inductive HandleUpdateOutcome where
  | processed (p : Processed UpdateMeta UpdateResult)
  | failed (f : Failed UpdateMeta String)
  | panicked
deriving DecidableEq, Repr

/-- The default implementation of `IndexController::handle_update` supplied by
the trait itself: its body is `todo!()`, which panics unconditionally on
every invocation. -/
def IndexController.handle_update (_index : String) (_update_id : Nat)
    (_meta : Processing UpdateMeta) (_content : List Nat) : HandleUpdateOutcome :=
  .panicked

/-! ### Byte-level lemmas -/

theorem u64Bytes_length (n : Nat) : (u64Bytes n).length = 8 := rfl

theorem readU64LE_u64Bytes_append (n : Nat) (rest : List Nat) :
    readU64LE (u64Bytes n ++ rest) = n % 2 ^ 64 := by
  simp only [u64Bytes, List.cons_append, List.nil_append, readU64LE]
  omega

theorem readU64LE_u64Bytes (n : Nat) : readU64LE (u64Bytes n) = n % 2 ^ 64 := by
  simpa using readU64LE_u64Bytes_append n []

theorem rangeBytes_length (r : Range) : (rangeBytes r).length = 16 := rfl

theorem docIndexBytes_length (e : DocIndex) : (docIndexBytes e).length = 24 := rfl

theorem rangesBytes_nil : rangesBytes [] = [] := rfl

theorem rangesBytes_cons (r : Range) (rs : List Range) :
    rangesBytes (r :: rs) = rangeBytes r ++ rangesBytes rs := by
  simp [rangesBytes]

theorem rangesBytes_length (rs : List Range) :
    (rangesBytes rs).length = 16 * rs.length := by
  induction rs with
  | nil => rfl
  | cons r rs ih =>
    simp only [rangesBytes_cons, List.length_append, rangeBytes_length, ih,
      List.length_cons]
    omega

theorem sliceBytes_nil : sliceBytes [] = [] := rfl

theorem sliceBytes_cons (e : DocIndex) (l : List DocIndex) :
    sliceBytes (e :: l) = docIndexBytes e ++ sliceBytes l := by
  simp [sliceBytes]

theorem sliceBytes_length (l : List DocIndex) :
    (sliceBytes l).length = 24 * l.length := by
  induction l with
  | nil => rfl
  | cons e l ih =>
    simp only [sliceBytes_cons, List.length_append, docIndexBytes_length, ih,
      List.length_cons]
    omega

theorem sliceBytes_append (l₁ l₂ : List DocIndex) :
    sliceBytes (l₁ ++ l₂) = sliceBytes l₁ ++ sliceBytes l₂ := by
  simp [sliceBytes]

theorem flatten_map_sliceBytes (ls : List (List DocIndex)) :
    (ls.map sliceBytes).flatten = sliceBytes ls.flatten := by
  induction ls with
  | nil => rfl
  | cons l ls ih => simp [sliceBytes_append, ih]

/-- The value of a `Range` record as recovered by 64-bit reinterpretation. -/
def normRange (r : Range) : Range :=
  ⟨r.start % 2 ^ 64, r.«end» % 2 ^ 64⟩

/-- The value of a `DocIndex` record as recovered by 64-bit reinterpretation. -/
def normDocIndex (e : DocIndex) : DocIndex :=
  ⟨e.document_id % 2 ^ 64, e.«attribute» % 2 ^ 64, e.attribute_index % 2 ^ 64⟩

theorem normDocIndex_eq_self (e : DocIndex) (h1 : e.document_id < 2 ^ 64)
    (h2 : e.«attribute» < 2 ^ 64) (h3 : e.attribute_index < 2 ^ 64) :
    normDocIndex e = e := by
  simp only [normDocIndex, Nat.mod_eq_of_lt h1, Nat.mod_eq_of_lt h2,
    Nat.mod_eq_of_lt h3]

/-! ### Decoding the serialized segments -/

theorem decodeRanges_nil : decodeRanges [] = [] := by
  rw [decodeRanges]
  simp

theorem decodeRanges_cons (r : Range) (rest : List Nat) :
    decodeRanges (rangeBytes r ++ rest) = normRange r :: decodeRanges rest := by
  rw [decodeRanges]
  have hlen : ¬ (rangeBytes r ++ rest).length < 16 := by
    simp only [List.length_append, rangeBytes_length]
    omega
  rw [dif_neg hlen]
  have h1 : readU64LE (rangeBytes r ++ rest) = r.start % 2 ^ 64 := by
    rw [rangeBytes, List.append_assoc, readU64LE_u64Bytes_append]
  have h2 : (rangeBytes r ++ rest).drop 8 = u64Bytes r.«end» ++ rest := by
    rw [rangeBytes, List.append_assoc]
    exact List.drop_left (u64Bytes r.start) (u64Bytes r.«end» ++ rest)
  have h3 : (rangeBytes r ++ rest).drop 16 = rest :=
    List.drop_left (rangeBytes r) rest
  rw [h1, h2, readU64LE_u64Bytes_append, h3]
  rfl

theorem decodeRanges_rangesBytes (rs : List Range) :
    decodeRanges (rangesBytes rs) = rs.map normRange := by
  induction rs with
  | nil => exact decodeRanges_nil
  | cons r rs ih => rw [rangesBytes_cons, decodeRanges_cons, ih, List.map_cons]

theorem decodeIndexes_nil : decodeIndexes [] = [] := by
  rw [decodeIndexes]
  simp

theorem decodeIndexes_cons (e : DocIndex) (rest : List Nat) :
    decodeIndexes (docIndexBytes e ++ rest) = normDocIndex e :: decodeIndexes rest := by
  rw [decodeIndexes]
  have hlen : ¬ (docIndexBytes e ++ rest).length < 24 := by
    simp only [List.length_append, docIndexBytes_length]
    omega
  rw [dif_neg hlen]
  have h1 : readU64LE (docIndexBytes e ++ rest) = e.document_id % 2 ^ 64 := by
    rw [docIndexBytes, List.append_assoc, List.append_assoc, readU64LE_u64Bytes_append]
  have h2 : (docIndexBytes e ++ rest).drop 8 =
      u64Bytes e.«attribute» ++ (u64Bytes e.attribute_index ++ rest) := by
    rw [docIndexBytes, List.append_assoc, List.append_assoc]
    exact List.drop_left (u64Bytes e.document_id) _
  have h3 : (docIndexBytes e ++ rest).drop 16 = u64Bytes e.attribute_index ++ rest := by
    rw [docIndexBytes, List.append_assoc]
    exact List.drop_left (u64Bytes e.document_id ++ u64Bytes e.«attribute») _
  have h4 : (docIndexBytes e ++ rest).drop 24 = rest :=
    List.drop_left (docIndexBytes e) rest
  rw [h1, h2, readU64LE_u64Bytes_append, h3, readU64LE_u64Bytes_append, h4]
  rfl

theorem decodeIndexes_sliceBytes (l : List DocIndex) :
    decodeIndexes (sliceBytes l) = l.map normDocIndex := by
  induction l with
  | nil => exact decodeIndexes_nil
  | cons e l ih => rw [sliceBytes_cons, decodeIndexes_cons, ih, List.map_cons]

/-! ### Builder state after a sequence of insertions -/

/-- The ranges recorded by successive `insert` calls, starting from a previous
`end` of `s`: each range starts where the previous one ended, and ends at
`start + len` in wrapping 64-bit arithmetic. -/
def prefixRangesFrom (s : Nat) : List (List DocIndex) → List Range
  | [] => []
  | l :: ls =>
    ⟨s, (s + l.length) % 2 ^ 64⟩ :: prefixRangesFrom ((s + l.length) % 2 ^ 64) ls

theorem prefixRangesFrom_length (s : Nat) (ls : List (List DocIndex)) :
    (prefixRangesFrom s ls).length = ls.length := by
  induction ls generalizing s with
  | nil => rfl
  | cons l ls ih => simp [prefixRangesFrom, ih]

theorem lastEnd_nil : lastEnd [] = 0 := rfl

theorem lastEnd_concat (rs : List Range) (r : Range) :
    lastEnd (rs ++ [r]) = r.«end» := by
  simp [lastEnd, List.getLast?_concat]

theorem foldl_insert_eq (ls : List (List DocIndex)) :
    ∀ b : DocIndexesBuilder,
      ls.foldl DocIndexesBuilder.insert b =
        ⟨b.ranges ++ prefixRangesFrom (lastEnd b.ranges) ls,
         b.wtr ++ sliceBytes ls.flatten⟩ := by
  induction ls with
  | nil =>
    intro b
    cases b
    simp [prefixRangesFrom, sliceBytes_nil]
  | cons l ls ih =>
    intro b
    rw [List.foldl_cons, ih]
    simp only [DocIndexesBuilder.insert, lastEnd_concat, prefixRangesFrom,
      List.flatten_cons, sliceBytes_append, List.append_assoc, List.cons_append,
      List.nil_append]

/-- The builder state reached from `memory()` by inserting `ls` in order. -/
theorem buildState (ls : List (List DocIndex)) :
    ls.foldl DocIndexesBuilder.insert DocIndexesBuilder.memory =
      ⟨prefixRangesFrom 0 ls, sliceBytes ls.flatten⟩ := by
  simpa [DocIndexesBuilder.memory, lastEnd_nil] using
    foldl_insert_eq ls DocIndexesBuilder.memory

/-! ### Entry-count bookkeeping -/

theorem totalLen_nil : totalLen [] = 0 := rfl

theorem totalLen_cons (l : List DocIndex) (ls : List (List DocIndex)) :
    totalLen (l :: ls) = l.length + totalLen ls := by
  simp [totalLen]

theorem totalLen_append (a b : List (List DocIndex)) :
    totalLen (a ++ b) = totalLen a + totalLen b := by
  simp [totalLen]

theorem totalLen_take_le (ls : List (List DocIndex)) (i : Nat) :
    totalLen (ls.take i) ≤ totalLen ls := by
  conv_rhs => rw [← List.take_append_drop i ls]
  rw [totalLen_append]
  omega

theorem totalLen_take_succ (ls : List (List DocIndex)) (i : Nat)
    (l : List DocIndex) (hl : ls[i]? = some l) :
    totalLen (ls.take (i + 1)) = totalLen (ls.take i) + l.length := by
  rw [List.take_succ, hl, totalLen_append]
  simp [totalLen]

theorem length_flatten_eq_totalLen (ls : List (List DocIndex)) :
    ls.flatten.length = totalLen ls := by
  simp [totalLen, List.length_flatten]

/-- Extracting the `i`-th inserted slice back out of the flat entry list. -/
theorem flatten_drop_take (ls : List (List DocIndex)) :
    ∀ (i : Nat) (l : List DocIndex), ls[i]? = some l →
      (ls.flatten.drop (totalLen (ls.take i))).take l.length = l := by
  induction ls with
  | nil =>
    intro i l h
    simp at h
  | cons a ls ih =>
    intro i l h
    match i with
    | 0 =>
      simp only [List.getElem?_cons_zero, Option.some.injEq] at h
      subst h
      simp only [List.take_zero, totalLen_nil, List.drop_zero, List.flatten_cons]
      exact List.take_left _ ls.flatten
    | i + 1 =>
      simp only [List.getElem?_cons_succ] at h
      rw [List.take_succ_cons, totalLen_cons, List.flatten_cons, List.drop_append]
      exact ih i l h

/-- The ranges recorded for `ls` starting at offset `s`: when the total entry
count stays below `2 ^ 64` the wrapping arithmetic is exact, and the `i`-th
range is the pair of prefix sums around slice `i`. -/
theorem prefixRangesFrom_getElem (ls : List (List DocIndex)) :
    ∀ (s i : Nat), s + totalLen ls < 2 ^ 64 → i < ls.length →
      (prefixRangesFrom s ls)[i]? =
        some ⟨s + totalLen (ls.take i), s + totalLen (ls.take (i + 1))⟩ := by
  induction ls with
  | nil =>
    intro s i _ hi
    simp at hi
  | cons l ls ih =>
    intro s i hs hi
    rw [totalLen_cons] at hs
    have hmod : (s + l.length) % 2 ^ 64 = s + l.length :=
      Nat.mod_eq_of_lt (by omega)
    match i with
    | 0 =>
      simp only [prefixRangesFrom, List.getElem?_cons_zero, Option.some.injEq,
        Range.mk.injEq, hmod]
      constructor
      · simp [totalLen]
      · simp [totalLen]
    | i + 1 =>
      simp only [prefixRangesFrom, List.getElem?_cons_succ, hmod]
      rw [ih (s + l.length) i (by omega) (by simpa using hi)]
      simp only [Option.some.injEq, Range.mk.injEq, List.take_succ_cons,
        totalLen_cons]
      omega

/-! ### Loading a built buffer -/

/-- Loading any buffer of the shape `entries ++ ranges ++ trailer` recovers
the two segments byte for byte. -/
theorem from_data_layout (W R : List Nat) (hR : R.length < 2 ^ 64) :
    DocIndexes.from_data (W ++ R ++ u64Bytes R.length) = .ok ⟨R, W⟩ := by
  have hlen : (W ++ R ++ u64Bytes R.length).length = W.length + R.length + 8 := by
    simp [u64Bytes]
    omega
  have hdrop : (W ++ R ++ u64Bytes R.length).drop (W.length + R.length) =
      u64Bytes R.length := by
    have h := List.drop_left (W ++ R) (u64Bytes R.length)
    rw [List.length_append] at h
    exact h
  unfold DocIndexes.from_data
  rw [hlen]
  simp only [Nat.add_sub_cancel]
  rw [hdrop, readU64LE_u64Bytes, Nat.mod_eq_of_lt hR]
  rw [if_neg (by omega), if_neg (by omega)]
  have hWlen : W.length + R.length - R.length = W.length := by omega
  rw [hWlen]
  have hranges : dataRange (W ++ R ++ u64Bytes R.length) W.length R.length = R := by
    unfold dataRange
    rw [List.append_assoc, List.drop_left W (R ++ u64Bytes R.length),
      List.take_left R (u64Bytes R.length)]
  have hindexes : dataRange (W ++ R ++ u64Bytes R.length) 0 W.length = W := by
    unfold dataRange
    rw [List.drop_zero, List.append_assoc, List.take_left W (R ++ u64Bytes R.length)]
  rw [hranges, hindexes]

theorem from_bytes_eq_from_data (v : List Nat) :
    DocIndexes.from_bytes v = DocIndexes.from_data v := by
  unfold DocIndexes.from_bytes DocIndexes.from_shared_bytes dataRange
  rw [List.drop_zero, List.take_length]

/-- The store obtained by building `ls` and loading the result. -/
def builtStore (ls : List (List DocIndex)) : DocIndexes :=
  ⟨rangesBytes (prefixRangesFrom 0 ls), sliceBytes ls.flatten⟩

theorem load_buildBuffer (ls : List (List DocIndex))
    (hn : 16 * ls.length < 2 ^ 64) :
    DocIndexes.from_bytes (buildBuffer ls) = .ok (builtStore ls) := by
  rw [from_bytes_eq_from_data]
  unfold buildBuffer
  rw [buildState]
  have hR : (rangesBytes (prefixRangesFrom 0 ls)).length < 2 ^ 64 := by
    rw [rangesBytes_length, prefixRangesFrom_length]
    omega
  exact from_data_layout (sliceBytes ls.flatten) (rangesBytes (prefixRangesFrom 0 ls)) hR

/-! ### Lookups on a built store -/

theorem builtStore_get_of_lt (ls : List (List DocIndex))
    (hS : totalLen ls < 2 ^ 64) (i : Nat) (l : List DocIndex)
    (hl : ls[i]? = some l) :
    (builtStore ls).get i = .found (l.map normDocIndex) := by
  have hi : i < ls.length := by
    by_contra hge
    rw [List.getElem?_eq_none (by omega)] at hl
    exact Option.noConfusion hl
  have hA : totalLen (ls.take i) ≤ totalLen ls := totalLen_take_le ls i
  have hB : totalLen (ls.take (i + 1)) ≤ totalLen ls := totalLen_take_le ls (i + 1)
  have hAB : totalLen (ls.take (i + 1)) = totalLen (ls.take i) + l.length :=
    totalLen_take_succ ls i l hl
  unfold builtStore DocIndexes.get
  rw [decodeRanges_rangesBytes, List.getElem?_map,
    prefixRangesFrom_getElem ls 0 i (by omega) hi]
  have hnormA : totalLen (ls.take i) % 2 ^ 64 = totalLen (ls.take i) :=
    Nat.mod_eq_of_lt (by omega)
  have hnormB : totalLen (ls.take (i + 1)) % 2 ^ 64 = totalLen (ls.take (i + 1)) :=
    Nat.mod_eq_of_lt (by omega)
  simp only [Nat.zero_add, Option.map_some', normRange, hnormA, hnormB]
  rw [decodeIndexes_sliceBytes]
  have hElen : (ls.flatten.map normDocIndex).length = totalLen ls := by
    rw [List.length_map, length_flatten_eq_totalLen]
  rw [if_pos (by rw [hElen]; omega)]
  have hmapflat : ls.flatten.map normDocIndex = (ls.map (List.map normDocIndex)).flatten := by
    rw [List.map_flatten]
  rw [hmapflat]
  have hl' : (ls.map (List.map normDocIndex))[i]? = some (l.map normDocIndex) := by
    rw [List.getElem?_map, hl]
    rfl
  have hdiff : totalLen (ls.take (i + 1)) - totalLen (ls.take i) =
      (l.map normDocIndex).length := by
    rw [List.length_map]
    omega
  rw [hdiff]
  have htake : totalLen ((ls.map (List.map normDocIndex)).take i) = totalLen (ls.take i) := by
    simp only [totalLen, ← List.map_take, List.map_map]
    congr 1
    apply List.map_congr_left
    intro a _
    simp [Function.comp]
  rw [← htake]
  exact congrArg GetResult.found (flatten_drop_take (ls.map (List.map normDocIndex)) i
    (l.map normDocIndex) hl')

theorem builtStore_get_of_ge (ls : List (List DocIndex)) (i : Nat)
    (hi : ls.length ≤ i) :
    (builtStore ls).get i = .notFound := by
  unfold builtStore DocIndexes.get
  rw [decodeRanges_rangesBytes]
  rw [List.getElem?_eq_none
    (by rw [List.length_map, prefixRangesFrom_length]; omega)]

/-! ### Field-loop helpers for the serialized metadata types -/

theorem deserializeFieldKeys_ok_iff (fields input : List String) :
    deserializeFieldKeys fields true input = Except.ok () ↔
      ∀ k ∈ input, k ∈ fields := by
  unfold deserializeFieldKeys
  cases hfind : input.find? (fun k => true && !fields.contains k) with
  | none =>
    constructor
    · intro _ k hk
      have h := List.find?_eq_none.mp hfind k hk
      simpa using h
    · intro _
      rfl
  | some k =>
    constructor
    · intro h
      exact Except.noConfusion h
    · intro hall
      have hp := List.find?_some hfind
      have hkin : k ∈ input := List.mem_of_find?_eq_some hfind
      have hmem := hall k hkin
      simp at hp
      exact absurd hmem hp

theorem deserializeFieldKeys_no_deny (fields input : List String) :
    deserializeFieldKeys fields false input = Except.ok () := by
  unfold deserializeFieldKeys
  have h : input.find? (fun k => false && !fields.contains k) = none :=
    List.find?_eq_none.mpr (by intro x _; simp)
  rw [h]

/-! ### Claim theorems -/

/-- C2 — counterexample.  The claim says loading returns a malformed-data
error result, rather than panicking, when the buffer is shorter than 8 bytes
or when the ranges length read from the trailer exceeds the remaining buffer.
On the empty buffer and a 3-byte buffer (`len < 8`), and on the 8-byte buffer
whose trailer reads 16 (`ranges_len > len - 8`), `from_bytes` panics — it
does not return an error result. -/
theorem load_short_buffer_panics_not_error :
    DocIndexes.from_bytes [] = LoadResult.panicked ∧
    DocIndexes.from_bytes [0, 0, 0] = LoadResult.panicked ∧
    DocIndexes.from_bytes (u64Bytes 16) = LoadResult.panicked := by
  decide

/-- C2 (amended): loading never returns an error result; instead `from_data`
panics (unchecked `usize` subtraction) exactly when the buffer is shorter
than 8 bytes or when the ranges length read from the trailing 8 bytes exceeds
the remaining buffer.  On every other input it returns a loaded store. -/
theorem from_data_underflow_panics (data : List Nat) :
    DocIndexes.from_data data ≠ LoadResult.ioError ∧
    (DocIndexes.from_data data = LoadResult.panicked ↔
      data.length < 8 ∨ data.length - 8 < readU64LE (data.drop (data.length - 8))) := by
  unfold DocIndexes.from_data
  by_cases h1 : data.length < 8
  · rw [if_pos h1]
    exact ⟨fun h => LoadResult.noConfusion h, by simp [h1]⟩
  · rw [if_neg h1]
    by_cases h2 : data.length - 8 < readU64LE (data.drop (data.length - 8))
    · rw [if_pos h2]
      exact ⟨fun h => LoadResult.noConfusion h, by simp [h1, h2]⟩
    · rw [if_neg h2]
      exact ⟨fun h => LoadResult.noConfusion h, by simp [h1, h2]⟩

/-- C3 — the code evaluated at the failing input.  An input whose
`facetedAttributes` key is explicitly present with `null` deserializes to the
absent state `none` (leave unchanged), not to the present-and-null state
`some none`: the field lacks the `deserialize_some` adapter the other three
fields carry, so serde's outer `Option` consumes the `null`.  The second
conjunct contrasts the same `null` wire value on all four fields: the three
adapted fields preserve present-and-null, `faceted_attributes` drops it. -/
theorem faceted_null_deserializes_to_absent :
    Settings.deserialize ⟨none, none, some none, none⟩ =
      { displayed_attributes := none, searchable_attributes := none,
        faceted_attributes := none, criteria := none } ∧
    Settings.deserialize ⟨some none, some none, some none, some none⟩ =
      { displayed_attributes := some none, searchable_attributes := some none,
        faceted_attributes := none, criteria := some none } :=
  ⟨rfl, rfl⟩

/-- C7 — counterexample.  The claim says every `handle_update` invocation
returns a `Processed` result or a `Failed` outcome and never panics; the
trait's provided default body is `todo!()`, which panics on this (and any)
concrete invocation. -/
theorem handle_update_concrete_panics :
    IndexController.handle_update "movies" 7 ⟨7, UpdateMeta.clearDocuments⟩ [] =
      HandleUpdateOutcome.panicked :=
  rfl

/-- C7 (amended): the default implementation of `handle_update` supplied by
the `IndexController` trait panics (`todo!()`) on every invocation; by its
result type, any implementation that returns instead of panicking must
produce either a `Processed` result or a `Failed` outcome. -/
theorem handle_update_default_always_panics (index : String) (update_id : Nat)
    (meta : Processing UpdateMeta) (content : List Nat) :
    IndexController.handle_update index update_id meta content =
      HandleUpdateOutcome.panicked :=
  rfl

/-- C8 — counterexample.  The claim says `IndexMetadata` deserialization
rejects inputs containing an unknown field name; `IndexMetadata` has no
`deny_unknown_fields` attribute, so an input carrying the extra key
`"unknownField"` is accepted (the key is skipped), not rejected. -/
theorem index_metadata_unknown_field_accepted :
    deserializeFieldKeys IndexMetadata.fieldNames IndexMetadata.denyUnknownFields
      ["name", "uuid", "createdAt", "updatedAt", "primaryKey", "unknownField"] =
      Except.ok () :=
  rfl

/-- C8 (amended): only `Settings` and `Facets` declare `deny_unknown_fields`,
so their deserialization succeeds exactly when every input key is a declared
field (an unknown key is an error); `IndexMetadata` and `UpdateMeta` carry no
such attribute and accept any input keys.  `UpdateMeta` values are encoded
with the `"type"` discriminant tag first plus variant-specific payload, and
the tag determines the variant. -/
theorem metadata_unknown_fields_and_tagging :
    (∀ input : List String,
      deserializeFieldKeys Settings.fieldNames Settings.denyUnknownFields input =
        Except.ok () ↔ ∀ k ∈ input, k ∈ Settings.fieldNames) ∧
    (∀ input : List String,
      deserializeFieldKeys Facets.fieldNames Facets.denyUnknownFields input =
        Except.ok () ↔ ∀ k ∈ input, k ∈ Facets.fieldNames) ∧
    (∀ input : List String,
      deserializeFieldKeys IndexMetadata.fieldNames IndexMetadata.denyUnknownFields
        input = Except.ok ()) ∧
    (∀ m : UpdateMeta, ∀ input : List String,
      deserializeFieldKeys m.serializedKeys UpdateMeta.denyUnknownFields input =
        Except.ok ()) ∧
    (∀ m : UpdateMeta, m.serializedKeys[0]? = some "type") ∧
    (∀ m₁ m₂ : UpdateMeta, m₁.tag = m₂.tag → m₁.sameVariant m₂ = true) := by
  refine ⟨fun input => deserializeFieldKeys_ok_iff _ input,
    fun input => deserializeFieldKeys_ok_iff _ input,
    fun input => deserializeFieldKeys_no_deny _ input,
    fun m input => deserializeFieldKeys_no_deny _ input,
    fun m => by cases m <;> rfl,
    fun m₁ m₂ h => ?_⟩
  cases m₁ <;> cases m₂ <;> simp_all [UpdateMeta.tag, UpdateMeta.sameVariant]

/-- C9: `Settings::cleared()` puts all four tri-state fields in the
present-and-null state `Some(None)` — every field explicitly cleared, none
left in the absent (leave-unchanged) state. -/
theorem settings_cleared_all_fields_some_none :
    Settings.cleared.displayed_attributes = some none ∧
    Settings.cleared.searchable_attributes = some none ∧
    Settings.cleared.faceted_attributes = some none ∧
    Settings.cleared.criteria = some none :=
  ⟨rfl, rfl, rfl, rfl⟩

/-- C1: building a store from any sequence of posting-entry slices inserted
in order and loading the produced bytes yields a store whose `get i` returns
exactly the `i`-th inserted slice for every `i` below the number of
insertions, and not-found (`None`) for every `i` at or above it — never an
error.  The hypotheses bound the counts and field values by `2 ^ 64`, the
range of the `u64`/`usize` arithmetic the source performs. -/
theorem build_load_get_round_trip (ls : List (List DocIndex))
    (hn : 16 * ls.length < 2 ^ 64) (hS : totalLen ls < 2 ^ 64)
    (hf : ∀ l ∈ ls, ∀ e ∈ l, e.document_id < 2 ^ 64 ∧ e.«attribute» < 2 ^ 64 ∧
      e.attribute_index < 2 ^ 64) :
    ∃ d, DocIndexes.from_bytes (buildBuffer ls) = LoadResult.ok d ∧
      (∀ i l, ls[i]? = some l → d.get i = GetResult.found l) ∧
      (∀ i, ls.length ≤ i → d.get i = GetResult.notFound) := by
  refine ⟨builtStore ls, load_buildBuffer ls hn, ?_,
    fun i hi => builtStore_get_of_ge ls i hi⟩
  intro i l hl
  rw [builtStore_get_of_lt ls hS i l hl]
  have hmem : l ∈ ls := by
    obtain ⟨hi, hget⟩ := List.getElem?_eq_some.mp hl
    exact hget ▸ List.getElem_mem hi
  have hid : ∀ e ∈ l, normDocIndex e = e := by
    intro e he
    obtain ⟨h1, h2, h3⟩ := hf l hmem e he
    exact normDocIndex_eq_self e h1 h2 h3
  rw [List.map_congr_left hid, List.map_id']

/-- Witness for C1 at the spec's end-to-end example: the three posting lists
`[A]`, `[A, B, C]`, `[A, C]` over `A = (0, 3, 11)`, `B = (1, 4, 21)`,
`C = (2, 8, 2)`. -/
theorem build_load_get_round_trip_witness :
    ∃ d, DocIndexes.from_bytes (buildBuffer
        [[⟨0, 3, 11⟩], [⟨0, 3, 11⟩, ⟨1, 4, 21⟩, ⟨2, 8, 2⟩], [⟨0, 3, 11⟩, ⟨2, 8, 2⟩]]) =
        LoadResult.ok d ∧
      (∀ i l, [[⟨0, 3, 11⟩], [⟨0, 3, 11⟩, ⟨1, 4, 21⟩, ⟨2, 8, 2⟩],
        [⟨0, 3, 11⟩, ⟨2, 8, 2⟩]][i]? = some l → d.get i = GetResult.found l) ∧
      (∀ i, 3 ≤ i → d.get i = GetResult.notFound) :=
  build_load_get_round_trip
    [[⟨0, 3, 11⟩], [⟨0, 3, 11⟩, ⟨1, 4, 21⟩, ⟨2, 8, 2⟩], [⟨0, 3, 11⟩, ⟨2, 8, 2⟩]]
    (by decide) (by decide) (by decide)

/-- C4: for every buffer produced by `into_inner` (entry bytes, then ranges
bytes, then the 8-byte little-endian byte length of the ranges segment),
loading by reading the trailing 8 bytes and slicing per the trailer-anchored
layout reproduces, byte for byte, the ranges segment and the entries segment
written at build time. -/
theorem trailer_round_trip (b : DocIndexesBuilder)
    (hR : (rangesBytes b.ranges).length < 2 ^ 64) :
    DocIndexes.from_bytes b.into_inner =
      LoadResult.ok ⟨rangesBytes b.ranges, b.wtr⟩ := by
  rw [from_bytes_eq_from_data]
  unfold DocIndexesBuilder.into_inner
  exact from_data_layout b.wtr (rangesBytes b.ranges) hR

/-- Witness for C4 at a concrete builder state holding one recorded range and
two serialized entries. -/
theorem trailer_round_trip_witness :
    DocIndexes.from_bytes
      (DocIndexesBuilder.mk [⟨0, 2⟩] (sliceBytes [⟨0, 3, 11⟩, ⟨1, 4, 21⟩])).into_inner =
      LoadResult.ok ⟨rangesBytes [⟨0, 2⟩], sliceBytes [⟨0, 3, 11⟩, ⟨1, 4, 21⟩]⟩ :=
  trailer_round_trip (DocIndexesBuilder.mk [⟨0, 2⟩] (sliceBytes [⟨0, 3, 11⟩, ⟨1, 4, 21⟩]))
    (by decide)

/-- The `ranges` vector accumulated by inserting `ls` in order from
`memory()`. -/
def buildRanges (ls : List (List DocIndex)) : List Range :=
  (ls.foldl DocIndexesBuilder.insert DocIndexesBuilder.memory).ranges

/-- C5: after any sequence of `insert` calls, the recorded ranges are
monotonic and contiguous: there is one range per insertion, the first range
starts at 0, each range ends at its start plus the length of the slice of the
same index, and each later range starts where the previous one ended. -/
theorem insert_ranges_contiguous (ls : List (List DocIndex))
    (hS : totalLen ls < 2 ^ 64) :
    (buildRanges ls).length = ls.length ∧
    (∀ (i : Nat) (l : List DocIndex) (r : Range),
      ls[i]? = some l → (buildRanges ls)[i]? = some r →
      r.«end» = r.start + l.length) ∧
    (∀ r : Range, (buildRanges ls)[0]? = some r → r.start = 0) ∧
    (∀ (i : Nat) (r r' : Range),
      (buildRanges ls)[i]? = some r → (buildRanges ls)[i + 1]? = some r' →
      r'.start = r.«end») := by
  have hbr : buildRanges ls = prefixRangesFrom 0 ls := by
    unfold buildRanges
    rw [buildState]
  rw [hbr]
  refine ⟨prefixRangesFrom_length 0 ls, ?_, ?_, ?_⟩
  · intro i l r hl hr
    have hi : i < ls.length := by
      by_contra hge
      rw [List.getElem?_eq_none (by rw [prefixRangesFrom_length]; omega)] at hr
      exact Option.noConfusion hr
    rw [prefixRangesFrom_getElem ls 0 i (by omega) hi] at hr
    injection hr with hr
    subst hr
    simp only [Nat.zero_add]
    exact totalLen_take_succ ls i l hl
  · intro r hr
    have hi : 0 < ls.length := by
      by_contra hge
      rw [List.getElem?_eq_none (by rw [prefixRangesFrom_length]; omega)] at hr
      exact Option.noConfusion hr
    rw [prefixRangesFrom_getElem ls 0 0 (by omega) hi] at hr
    injection hr with hr
    subst hr
    simp [totalLen]
  · intro i r r' hr hr'
    have hi : i + 1 < ls.length := by
      by_contra hge
      rw [List.getElem?_eq_none (by rw [prefixRangesFrom_length]; omega)] at hr'
      exact Option.noConfusion hr'
    rw [prefixRangesFrom_getElem ls 0 i (by omega) (by omega)] at hr
    rw [prefixRangesFrom_getElem ls 0 (i + 1) (by omega) hi] at hr'
    injection hr with hr
    injection hr' with hr'
    subst hr
    subst hr'
    rfl

/-- Witness for C5 at two insertions of lengths 1 and 2. -/
theorem insert_ranges_contiguous_witness :
    (buildRanges [[⟨0, 3, 11⟩], [⟨1, 4, 21⟩, ⟨2, 8, 2⟩]]).length = 2 ∧
    (∀ (i : Nat) (l : List DocIndex) (r : Range),
      ([[⟨0, 3, 11⟩], [⟨1, 4, 21⟩, ⟨2, 8, 2⟩]] : List (List DocIndex))[i]? = some l →
      (buildRanges [[⟨0, 3, 11⟩], [⟨1, 4, 21⟩, ⟨2, 8, 2⟩]])[i]? = some r →
      r.«end» = r.start + l.length) ∧
    (∀ r : Range, (buildRanges [[⟨0, 3, 11⟩], [⟨1, 4, 21⟩, ⟨2, 8, 2⟩]])[0]? = some r →
      r.start = 0) ∧
    (∀ (i : Nat) (r r' : Range),
      (buildRanges [[⟨0, 3, 11⟩], [⟨1, 4, 21⟩, ⟨2, 8, 2⟩]])[i]? = some r →
      (buildRanges [[⟨0, 3, 11⟩], [⟨1, 4, 21⟩, ⟨2, 8, 2⟩]])[i + 1]? = some r' →
      r'.start = r.«end») :=
  insert_ranges_contiguous [[⟨0, 3, 11⟩], [⟨1, 4, 21⟩, ⟨2, 8, 2⟩]] (by decide)

/-- C6: a build with zero insertions loads successfully and its store answers
not-found for every index; a build whose single insertion is the empty slice
loads successfully and `get 0` returns the empty slice. -/
theorem boundary_empty_builds :
    DocIndexes.from_bytes (buildBuffer []) = LoadResult.ok ⟨[], []⟩ ∧
    (∀ i, (DocIndexes.mk [] []).get i = GetResult.notFound) ∧
    DocIndexes.from_bytes (buildBuffer [[]]) =
      LoadResult.ok ⟨rangeBytes ⟨0, 0⟩, []⟩ ∧
    (DocIndexes.mk (rangeBytes ⟨0, 0⟩) []).get 0 = GetResult.found [] := by
  refine ⟨by decide, ?_, by decide, ?_⟩
  · intro i
    show DocIndexes.get ⟨[], []⟩ i = GetResult.notFound
    unfold DocIndexes.get
    rw [show (DocIndexes.mk [] []).ranges = [] from rfl, decodeRanges_nil]
    rw [List.getElem?_nil]
  · have h1 : decodeRanges (rangeBytes ⟨0, 0⟩) = [⟨0, 0⟩] := by
      rw [← List.append_nil (rangeBytes ⟨0, 0⟩), decodeRanges_cons, decodeRanges_nil]
      rfl
    show DocIndexes.get ⟨rangeBytes ⟨0, 0⟩, []⟩ 0 = GetResult.found []
    unfold DocIndexes.get
    rw [show (DocIndexes.mk (rangeBytes ⟨0, 0⟩) []).ranges = rangeBytes ⟨0, 0⟩ from rfl,
      show (DocIndexes.mk (rangeBytes ⟨0, 0⟩) []).indexes = [] from rfl,
      h1, decodeIndexes_nil]
    simp

/-- C10: on any store loaded from a buffer produced by the builder, `get`
never hits the out-of-bounds entries-slicing branch: every in-range lookup's
resolved window satisfies `start ≤ end ≤ entries.len()`, so `get` never
panics (it answers found or not-found). -/
theorem built_get_never_panics (ls : List (List DocIndex))
    (hn : 16 * ls.length < 2 ^ 64) (hS : totalLen ls < 2 ^ 64)
    (d : DocIndexes) (hload : DocIndexes.from_bytes (buildBuffer ls) = LoadResult.ok d)
    (i : Nat) :
    d.get i ≠ GetResult.panicked := by
  rw [load_buildBuffer ls hn] at hload
  injection hload with hd
  subst hd
  by_cases hi : i < ls.length
  · obtain ⟨l, hl⟩ : ∃ l, ls[i]? = some l := ⟨ls[i], List.getElem?_eq_getElem hi⟩
    rw [builtStore_get_of_lt ls hS i l hl]
    exact fun h => GetResult.noConfusion h
  · rw [builtStore_get_of_ge ls i (by omega)]
    exact fun h => GetResult.noConfusion h

/-- Witness for C10 at the single-slice build `[[A]]` and index 0. -/
theorem built_get_never_panics_witness :
    (builtStore [[⟨0, 3, 11⟩]]).get 0 ≠ GetResult.panicked :=
  built_get_never_panics [[⟨0, 3, 11⟩]] (by decide) (by decide)
    (builtStore [[⟨0, 3, 11⟩]]) (by decide) 0

end Meili
